import Mathlib

/-!
Verification of a rule-based trading-strategy backtester (RSI + MACD + SMA
indicators feeding a two-state position machine).  Prices are embedded as
rationals; array indices as integers, with the price history supplied as a
total function `ℤ → ℚ` for the indicator functions (the engine builds that
function from the concrete closing-price list, out-of-range reads yielding 0).
-/

namespace Strategy

/-- RSI over the trailing `period` bars ending at `index`: sums positive
day-over-day changes into a gain accumulator and the magnitudes of
non-positive changes into a loss accumulator, then applies the standard
RSI formula; returns the neutral sentinel 50 when `index < period` and the
maximum 100 when the loss accumulator is zero. -/
def calculate_rsi (closes : ℤ → ℚ) (index : ℤ) (period : ℤ) : ℚ :=
  if index < period then 50
  else
    let gl : ℚ × ℚ :=
      (List.range period.toNat).foldl
        (fun gl (j : ℕ) =>
          let i : ℤ := index - period + 1 + (j : ℤ)
          let change : ℚ := closes i - closes (i - 1)
          if 0 < change then (gl.1 + change, gl.2) else (gl.1, gl.2 - change))
        (0, 0)
    if gl.2 = 0 then 100
    else
      let rs : ℚ := gl.1 / gl.2
      100 - 100 / (1 + rs)

/-- Exponential moving average: seed with the data point `length - 1` bars
before `current_index`, then blend each subsequent sample forward to
`current_index` with smoothing factor `k = 2 / (length + 1)`. -/
def ema (data : ℤ → ℚ) (current_index : ℤ) (length : ℤ) : ℚ :=
  let k : ℚ := 2 / ((length : ℚ) + 1)
  (List.range (length - 1).toNat).foldl
    (fun e (j : ℕ) => data (current_index - length + 2 + (j : ℤ)) * k + e * (1 - k))
    (data (current_index - length + 1))

/-- MACD: fast EMA of length 12 minus slow EMA of length 26, both ending at
`index`. -/
def calculate_macd (closes : ℤ → ℚ) (index : ℤ) : ℚ :=
  let ema12 := ema closes index 12
  let ema26 := ema closes index 26
  ema12 - ema26

/-- Simple moving average of the trailing `period` closes ending at `index`;
returns the current close itself when `index < period`. -/
def calculate_sma (closes : ℤ → ℚ) (index : ℤ) (period : ℤ) : ℚ :=
  if index < period then closes index
  else
    ((List.range period.toNat).foldl
      (fun sum (j : ℕ) => sum + closes (index - period + 1 + (j : ℤ))) 0) / (period : ℚ)

/-- Modelled from the spec: the Candle record of the missing header
strategy.h.  Only the closing price is consumed by the core logic, so only
that field is carried. -/
structure Candle where
  close : ℚ
deriving DecidableEq, Repr

/-- Modelled from the spec: the TradeResult record of the missing header
strategy.h — success rate and average return as percentages, the completed
trade count, and a reserved per-trade log slot that the implementation
leaves empty. -/
structure TradeResult where
  success_rate : ℚ
  average_return_percent : ℚ
  trade_count : ℕ
  trade_log : List ℚ
deriving DecidableEq, Repr

/-- Mutable engine state of a strategy run: win and trade counters, the
running total return, whether a position is held, and the recorded entry
price. -/
structure EngineState where
  wins : ℕ
  trades : ℕ
  total_return : ℚ
  in_position : Bool
  entry_price : ℚ
deriving DecidableEq, Repr

/-- Closing-price series derived from the candle sequence. -/
def closesOf (candles : List Candle) : List ℚ :=
  candles.map Candle.close

/-- Total price-history function backing the list of closes: in-range
indices read the list, out-of-range reads give 0. -/
def closesFun (closes : List ℚ) : ℤ → ℚ :=
  fun j => if 0 ≤ j then closes.getD j.toNat 0 else 0

/-- Initial engine state: no wins, no trades, zero return, flat. -/
def initState : EngineState :=
  ⟨0, 0, 0, false, 0⟩

/-- One scanned index of the strategy loop: evaluate RSI(14), MACD and
SMA(20) at index `i`; enter long (recording the entry price) when flat and
all entry conditions hold, otherwise exit (folding the trade outcome into
the accumulators) when long and either exit condition holds. -/
def stepState (closes : ℤ → ℚ) (profit_threshold : ℚ) (s : EngineState) (i : ℕ) : EngineState :=
  let rsi := calculate_rsi closes i 14
  let macd := calculate_macd closes i
  let sma20 := calculate_sma closes i 20
  if s.in_position = false ∧ rsi < 30 ∧ 0 < macd ∧ sma20 < closes i then
    { s with in_position := true, entry_price := closes i }
  else if s.in_position = true ∧ (60 < rsi ∨ closes i < sma20) then
    let ret := (closes i - s.entry_price) / s.entry_price
    { s with total_return := s.total_return + ret,
             wins := if profit_threshold < ret then s.wins + 1 else s.wins,
             trades := s.trades + 1,
             in_position := false }
  else s

/-- Engine state after scanning the first `m` of the indices 26, 27, …,
`n - 1` over the closing-price series of length `n`. -/
def scanStateUpTo (candles : List Candle) (profit_threshold : ℚ) (m : ℕ) : EngineState :=
  let closes := closesOf candles
  (((List.range closes.length).drop 26).take m).foldl
    (stepState (closesFun closes) profit_threshold) initState

/-- Engine state after the whole scan over indices 26 … `n - 1`. -/
def scanState (candles : List Candle) (profit_threshold : ℚ) : EngineState :=
  let closes := closesOf candles
  ((List.range closes.length).drop 26).foldl
    (stepState (closesFun closes) profit_threshold) initState

/-- Engine state after the terminal forced close: if the scan ended while
still long, one final exit is synthesized at the last closing price with the
same accounting as a normal exit. -/
def finalState (candles : List Candle) (profit_threshold : ℚ) : EngineState :=
  let closes := closesOf candles
  let s := scanState candles profit_threshold
  if s.in_position = true then
    let ret := (closesFun closes ((closes.length : ℤ) - 1) - s.entry_price) / s.entry_price
    { s with total_return := s.total_return + ret,
             wins := if profit_threshold < ret then s.wins + 1 else s.wins,
             trades := s.trades + 1 }
  else s

/-- Full strategy run: scan the series, force-close a dangling position, and
report success rate and average return (zero when no trades completed). -/
def run_strategy (candles : List Candle) (profit_threshold : ℚ) : TradeResult :=
  let s := finalState candles profit_threshold
  { success_rate := if s.trades ≠ 0 then (s.wins : ℚ) / (s.trades : ℚ) * 100 else 0
    average_return_percent := if s.trades ≠ 0 then s.total_return / (s.trades : ℚ) * 100 else 0
    trade_count := s.trades
    trade_log := [] }

/-- Gain accumulator of the RSI window as the spec words it: the sum of the
positive day-over-day changes over bars `index - period + 1 … index`, each
bar compared against the immediately preceding bar. -/
def rsiGain (closes : ℤ → ℚ) (index period : ℤ) : ℚ :=
  ∑ b ∈ Finset.Icc (index - period + 1) index, max (closes b - closes (b - 1)) 0

/-- Loss accumulator of the RSI window as the spec words it: the sum of the
absolute values of the negative day-over-day changes over bars
`index - period + 1 … index`. -/
def rsiLoss (closes : ℤ → ℚ) (index period : ℤ) : ℚ :=
  ∑ b ∈ Finset.Icc (index - period + 1) index, max (closes (b - 1) - closes b) 0

/-- EMA recurrence as the spec words it: seed with the data point
`length - 1` bars before the target index, then blend one sample forward per
step with smoothing factor `k = 2 / (length + 1)`; step `n` has consumed the
samples up to `index - length + 1 + n`. -/
def emaSpec (data : ℤ → ℚ) (index length : ℤ) : ℕ → ℚ
  | 0 => data (index - length + 1)
  | n + 1 =>
      data (index - length + 1 + (n + 1)) * (2 / ((length : ℚ) + 1)) +
        emaSpec data index length n * (1 - 2 / ((length : ℚ) + 1))

/-- Closing-price series whose tail declines one unit per bar after an early
deep dip: the decline puts RSI at 0, the dip keeps both the 20-bar SMA and
the slow EMA far below the final price, so the entry condition fires at
index 26 even though the final close is not positive. -/
def c9closes : List ℚ :=
  [0, 0, 0, 0, 0, 0, 0,
   -10000, -10000, -10000, -10000, -10000,
   13, 12, 11, 10, 9, 8, 7, 6, 5, 4, 3, 2, 1, 0, -1]

/-- Candle series carrying `c9closes`. -/
def c9candles : List Candle := c9closes.map Candle.mk

/-- The same shape as `c9closes` shifted up by 20000, so every close is
strictly positive; the entry condition again fires at index 26 (differences,
SMA gaps and EMA gaps are translation-invariant) and the scan ends long. -/
def exCloses : List ℚ :=
  [20000, 20000, 20000, 20000, 20000, 20000, 20000,
   10000, 10000, 10000, 10000, 10000,
   20013, 20012, 20011, 20010, 20009, 20008, 20007, 20006,
   20005, 20004, 20003, 20002, 20001, 20000, 19999]

/-- Candle series carrying `exCloses`. -/
def exCandles : List Candle := exCloses.map Candle.mk

section Lemmas

/-- A sum over an integer interval is the sum over the offsets from its left
endpoint. -/
lemma sum_Icc_eq_sum_range_cast (f : ℤ → ℚ) (a b : ℤ) :
    ∑ x ∈ Finset.Icc a b, f x = ∑ j ∈ Finset.range (b + 1 - a).toNat, f (a + j) := by
  rw [Int.Icc_eq_finset_map, Finset.sum_map]
  simp [Function.Embedding.trans_apply, Nat.castEmbedding_apply, addLeftEmbedding_apply]

/-- Folding plain addition of a function over an index range accumulates the
corresponding finite sum. -/
lemma foldl_range_add_sum (g : ℕ → ℚ) (c : ℚ) (n : ℕ) :
    (List.range n).foldl (fun sum j => sum + g j) c = c + ∑ j ∈ Finset.range n, g j := by
  induction n with
  | zero => simp
  | succ m ih =>
      rw [List.range_succ, List.foldl_append, ih, Finset.sum_range_succ]
      simp [add_assoc]

/-- Folding the gain/loss accumulation of the RSI loop over an index range
accumulates the sum of the positive parts into the first component and the
sum of the negative parts (as magnitudes) into the second. -/
lemma foldl_gainloss (d : ℕ → ℚ) (p : ℚ × ℚ) (n : ℕ) :
    (List.range n).foldl
        (fun gl j => if 0 < d j then (gl.1 + d j, gl.2) else (gl.1, gl.2 - d j)) p =
      (p.1 + ∑ j ∈ Finset.range n, max (d j) 0,
       p.2 + ∑ j ∈ Finset.range n, max (-(d j)) 0) := by
  induction n with
  | zero => simp
  | succ m ih =>
      rw [List.range_succ, List.foldl_append, ih]
      simp only [List.foldl_cons, List.foldl_nil]
      by_cases h : 0 < d m
      · rw [if_pos h]
        rw [Finset.sum_range_succ, Finset.sum_range_succ (fun j => max (-(d j)) 0)]
        rw [max_eq_left h.le, max_eq_right (neg_nonpos.mpr h.le)]
        simp [add_assoc]
      · rw [if_neg h]
        push_neg at h
        rw [Finset.sum_range_succ, Finset.sum_range_succ (fun j => max (-(d j)) 0)]
        rw [max_eq_right h, max_eq_left (neg_nonneg.mpr h)]
        simp only [Prod.mk.injEq]
        constructor <;> ring

end Lemmas

attribute [local semireducible] Rat.add Rat.sub Rat.mul Rat.inv

set_option maxRecDepth 1000000

section IndicatorClaims

/-- A fold of the EMA blending step over an index range agrees with the
step-indexed EMA recurrence. -/
lemma foldl_emaSpec (data : ℤ → ℚ) (i length : ℤ) (n : ℕ) :
    (List.range n).foldl
        (fun e (j : ℕ) => data (i - length + 2 + (j : ℤ)) * (2 / ((length : ℚ) + 1)) +
          e * (1 - 2 / ((length : ℚ) + 1)))
        (data (i - length + 1)) = emaSpec data i length n := by
  induction n with
  | zero => rfl
  | succ m ih =>
      rw [List.range_succ, List.foldl_append, ih]
      simp only [List.foldl_cons, List.foldl_nil, emaSpec]
      congr 2
      ring_nf

/-- C6: calculate_sma returns the current close exactly when the index is
below the period, and the arithmetic mean of the trailing `period` closes
ending at the index inclusive when the index is at least the period. -/
theorem sma_fallback_and_mean (closes : ℤ → ℚ) (i p : ℤ) :
    (i < p → calculate_sma closes i p = closes i) ∧
    (p ≤ i → calculate_sma closes i p =
      (∑ b ∈ Finset.Icc (i - p + 1) i, closes b) / (p : ℚ)) := by
  constructor
  · intro h
    simp only [calculate_sma]
    rw [if_pos h]
  · intro h
    simp only [calculate_sma]
    rw [if_neg (not_lt.mpr h)]
    congr 1
    rw [foldl_range_add_sum (fun j => closes (i - p + 1 + (j : ℤ))) 0 p.toNat, zero_add]
    rw [sum_Icc_eq_sum_range_cast]
    have harg : (i + 1 - (i - p + 1)).toNat = p.toNat := by omega
    rw [harg]

/-- Witness for C6: with the identity price map, an index below the period
returns its own close, and an index at the period returns the trailing
mean. -/
theorem sma_fallback_and_mean_witness :
    calculate_sma (fun j => (j : ℚ)) 2 5 = ((2 : ℤ) : ℚ) ∧
    calculate_sma (fun j => (j : ℚ)) 5 3 =
      (∑ b ∈ Finset.Icc (5 - 3 + 1 : ℤ) 5, ((b : ℤ) : ℚ)) / ((3 : ℤ) : ℚ) :=
  ⟨(sma_fallback_and_mean (fun j => (j : ℚ)) 2 5).1 (by decide),
   (sma_fallback_and_mean (fun j => (j : ℚ)) 5 3).2 (by decide)⟩

/-- C4: with at least `period` bars of history, RSI equals the windowed
formula: 100 when the loss sum over bars `i - period + 1 … i` is zero, and
`100 - 100 / (1 + gain / loss)` otherwise, where gain and loss sum the
positive changes and the magnitudes of the negative changes, each bar
compared against the bar before it. -/
theorem rsi_window_formula (closes : ℤ → ℚ) (index period : ℤ) (h : period ≤ index) :
    calculate_rsi closes index period =
      if rsiLoss closes index period = 0 then 100
      else 100 - 100 / (1 + rsiGain closes index period / rsiLoss closes index period) := by
  have hg : rsiGain closes index period =
      ∑ j ∈ Finset.range period.toNat,
        max (closes (index - period + 1 + (j : ℤ)) -
          closes (index - period + 1 + (j : ℤ) - 1)) 0 := by
    rw [rsiGain, sum_Icc_eq_sum_range_cast]
    have harg : (index + 1 - (index - period + 1)).toNat = period.toNat := by omega
    rw [harg]
  have hl : rsiLoss closes index period =
      ∑ j ∈ Finset.range period.toNat,
        max (-(closes (index - period + 1 + (j : ℤ)) -
          closes (index - period + 1 + (j : ℤ) - 1))) 0 := by
    rw [rsiLoss, sum_Icc_eq_sum_range_cast]
    simp only [neg_sub]
    have harg : (index + 1 - (index - period + 1)).toNat = period.toNat := by omega
    rw [harg]
  simp only [calculate_rsi]
  rw [if_neg (not_lt.mpr h)]
  rw [foldl_gainloss
    (fun j => closes (index - period + 1 + (j : ℤ)) - closes (index - period + 1 + (j : ℤ) - 1))
    (0, 0) period.toNat]
  simp only [zero_add]
  rw [← hg, ← hl]

/-- Witness for C4: on the identity price map every change over the window
ending at index 14 is a gain, the loss sum is zero, and RSI evaluates to
100 exactly as the windowed formula says. -/
theorem rsi_window_formula_witness :
    calculate_rsi (fun j => (j : ℚ)) 14 14 = 100 := by
  rw [rsi_window_formula (fun j => (j : ℚ)) 14 14 (by decide)]
  decide

/-- C5: RSI always lies in the closed interval [0, 100], and with period 14
any index below 14 yields exactly the neutral sentinel 50. -/
theorem rsi_range_and_sentinel (closes : ℤ → ℚ) (i p : ℤ) :
    (0 ≤ calculate_rsi closes i p ∧ calculate_rsi closes i p ≤ 100) ∧
    (i < 14 → calculate_rsi closes i 14 = 50) := by
  constructor
  · by_cases hip : i < p
    · simp only [calculate_rsi]
      rw [if_pos hip]
      norm_num
    · simp only [calculate_rsi]
      rw [if_neg hip]
      rw [foldl_gainloss
        (fun j => closes (i - p + 1 + (j : ℤ)) - closes (i - p + 1 + (j : ℤ) - 1))
        (0, 0) p.toNat]
      simp only [zero_add]
      have hgain : 0 ≤ ∑ j ∈ Finset.range p.toNat,
          max (closes (i - p + 1 + (j : ℤ)) - closes (i - p + 1 + (j : ℤ) - 1)) 0 :=
        Finset.sum_nonneg fun j _ => le_max_right _ 0
      have hloss : 0 ≤ ∑ j ∈ Finset.range p.toNat,
          max (-(closes (i - p + 1 + (j : ℤ)) - closes (i - p + 1 + (j : ℤ) - 1))) 0 :=
        Finset.sum_nonneg fun j _ => le_max_right _ 0
      by_cases h0 : (∑ j ∈ Finset.range p.toNat,
          max (-(closes (i - p + 1 + (j : ℤ)) - closes (i - p + 1 + (j : ℤ) - 1))) 0) = 0
      · rw [if_pos h0]
        norm_num
      · rw [if_neg h0]
        have hlpos : 0 < ∑ j ∈ Finset.range p.toNat,
            max (-(closes (i - p + 1 + (j : ℤ)) - closes (i - p + 1 + (j : ℤ) - 1))) 0 :=
          lt_of_le_of_ne hloss (Ne.symm h0)
        have hrs : 0 ≤ (∑ j ∈ Finset.range p.toNat,
              max (closes (i - p + 1 + (j : ℤ)) - closes (i - p + 1 + (j : ℤ) - 1)) 0) /
            ∑ j ∈ Finset.range p.toNat,
              max (-(closes (i - p + 1 + (j : ℤ)) - closes (i - p + 1 + (j : ℤ) - 1))) 0 :=
          div_nonneg hgain hloss
        have hone : (1 : ℚ) ≤ 1 + (∑ j ∈ Finset.range p.toNat,
              max (closes (i - p + 1 + (j : ℤ)) - closes (i - p + 1 + (j : ℤ) - 1)) 0) /
            ∑ j ∈ Finset.range p.toNat,
              max (-(closes (i - p + 1 + (j : ℤ)) - closes (i - p + 1 + (j : ℤ) - 1))) 0 := by
          linarith
        constructor
        · have : (100 : ℚ) / (1 + _) ≤ 100 := div_le_self (by norm_num) hone
          linarith [div_le_self (show (0:ℚ) ≤ 100 by norm_num) hone]
        · have hq : 0 ≤ (100 : ℚ) / (1 + (∑ j ∈ Finset.range p.toNat,
                max (closes (i - p + 1 + (j : ℤ)) - closes (i - p + 1 + (j : ℤ) - 1)) 0) /
              ∑ j ∈ Finset.range p.toNat,
                max (-(closes (i - p + 1 + (j : ℤ)) - closes (i - p + 1 + (j : ℤ) - 1))) 0) :=
            div_nonneg (by norm_num) (by linarith)
          linarith
  · intro h
    simp only [calculate_rsi]
    rw [if_pos h]

/-- Witness for C5: at index 3 with period 14 the RSI of the identity map is
within [0, 100] and is exactly the sentinel 50. -/
theorem rsi_range_and_sentinel_witness :
    (0 ≤ calculate_rsi (fun j => (j : ℚ)) 3 14 ∧ calculate_rsi (fun j => (j : ℚ)) 3 14 ≤ 100) ∧
    calculate_rsi (fun j => (j : ℚ)) 3 14 = 50 :=
  ⟨(rsi_range_and_sentinel (fun j => (j : ℚ)) 3 14).1,
   (rsi_range_and_sentinel (fun j => (j : ℚ)) 3 14).2 (by decide)⟩

/-- C7: the EMA seeds with the data point `length - 1` bars before the
target index and folds each subsequent sample forward with smoothing factor
`2 / (length + 1)` — it equals the step-indexed recurrence `emaSpec` run
for `length - 1` blending steps — and MACD is exactly the length-12 EMA
minus the length-26 EMA at the same index. -/
theorem ema_recurrence_and_macd (data : ℤ → ℚ) (i length : ℤ)
    (h1 : 1 ≤ length) (h2 : length - 1 ≤ i) :
    ema data i length = emaSpec data i length (length - 1).toNat ∧
    calculate_macd data i = ema data i 12 - ema data i 26 := by
  constructor
  · simp only [ema]
    exact foldl_emaSpec data i length (length - 1).toNat
  · rfl

/-- Witness for C7: a length-2 EMA at index 1 of the identity map equals one
step of the recurrence, and the MACD decomposition holds there. -/
theorem ema_recurrence_and_macd_witness :
    ema (fun j => (j : ℚ)) 1 2 = emaSpec (fun j => (j : ℚ)) 1 2 ((2 - 1 : ℤ)).toNat ∧
    calculate_macd (fun j => (j : ℚ)) 1 =
      ema (fun j => (j : ℚ)) 1 12 - ema (fun j => (j : ℚ)) 1 26 :=
  ema_recurrence_and_macd (fun j => (j : ℚ)) 1 2 (by decide) (by decide)

end IndicatorClaims

section FrameClaims

/-- The EMA ending at index `i` reads the price history only at indices
between 0 and `i`: two histories agreeing there give the same EMA. -/
lemma ema_congr (f g : ℤ → ℚ) (i length : ℤ) (h1 : 1 ≤ length) (h2 : length - 1 ≤ i)
    (h : ∀ j : ℤ, 0 ≤ j → j ≤ i → f j = g j) : ema f i length = ema g i length := by
  simp only [ema]
  rw [h (i - length + 1) (by omega) (by omega)]
  apply List.foldl_ext
  intro e j hj
  have hj' := List.mem_range.mp hj
  rw [h (i - length + 2 + (j : ℤ)) (by omega) (by omega)]

/-- The RSI window ending at index `i ≥ 14` reads the price history only at
indices between 0 and `i`. -/
lemma rsi_congr (f g : ℤ → ℚ) (i : ℤ) (hi : 14 ≤ i)
    (h : ∀ j : ℤ, 0 ≤ j → j ≤ i → f j = g j) :
    calculate_rsi f i 14 = calculate_rsi g i 14 := by
  simp only [calculate_rsi]
  rw [if_neg (not_lt.mpr hi), if_neg (not_lt.mpr hi)]
  have hfold : (List.range (14 : ℤ).toNat).foldl
      (fun gl (j : ℕ) =>
        if 0 < f (i - 14 + 1 + (j : ℤ)) - f (i - 14 + 1 + (j : ℤ) - 1) then
          (gl.1 + (f (i - 14 + 1 + (j : ℤ)) - f (i - 14 + 1 + (j : ℤ) - 1)), gl.2)
        else (gl.1, gl.2 - (f (i - 14 + 1 + (j : ℤ)) - f (i - 14 + 1 + (j : ℤ) - 1)))) (0, 0) =
      (List.range (14 : ℤ).toNat).foldl
      (fun gl (j : ℕ) =>
        if 0 < g (i - 14 + 1 + (j : ℤ)) - g (i - 14 + 1 + (j : ℤ) - 1) then
          (gl.1 + (g (i - 14 + 1 + (j : ℤ)) - g (i - 14 + 1 + (j : ℤ) - 1)), gl.2)
        else (gl.1, gl.2 - (g (i - 14 + 1 + (j : ℤ)) - g (i - 14 + 1 + (j : ℤ) - 1)))) (0, 0) := by
    apply List.foldl_ext
    intro gl j hj
    have hj' := List.mem_range.mp hj
    rw [h (i - 14 + 1 + (j : ℤ)) (by omega) (by omega),
      h (i - 14 + 1 + (j : ℤ) - 1) (by omega) (by omega)]
  rw [hfold]

/-- The SMA window ending at index `i ≥ 20` reads the price history only at
indices between 0 and `i`. -/
lemma sma_congr (f g : ℤ → ℚ) (i : ℤ) (hi : 20 ≤ i)
    (h : ∀ j : ℤ, 0 ≤ j → j ≤ i → f j = g j) :
    calculate_sma f i 20 = calculate_sma g i 20 := by
  simp only [calculate_sma]
  rw [if_neg (not_lt.mpr hi), if_neg (not_lt.mpr hi)]
  congr 1
  apply List.foldl_ext
  intro sum j hj
  have hj' := List.mem_range.mp hj
  rw [h (i - 20 + 1 + (j : ℤ)) (by omega) (by omega)]

/-- C8: at every index `i ≥ 26` (the only indices where the engine consults
indicators), RSI(14), MACD and SMA(20) depend only on prices at indices
between 0 and `i` inclusive — no read before index 0, no lookahead past
`i`. -/
theorem indicators_no_lookahead (f g : ℤ → ℚ) (i : ℤ) (hi : 26 ≤ i)
    (h : ∀ j : ℤ, 0 ≤ j → j ≤ i → f j = g j) :
    calculate_rsi f i 14 = calculate_rsi g i 14 ∧
    calculate_macd f i = calculate_macd g i ∧
    calculate_sma f i 20 = calculate_sma g i 20 := by
  refine ⟨rsi_congr f g i (by omega) h, ?_, sma_congr f g i (by omega) h⟩
  simp only [calculate_macd]
  rw [ema_congr f g i 12 (by omega) (by omega) h, ema_congr f g i 26 (by omega) (by omega) h]

/-- Witness for C8: two price maps that differ outside `[0, 26]` but agree
on it produce identical indicator values at index 26. -/
theorem indicators_no_lookahead_witness :
    calculate_rsi (fun j => if j ≤ 26 then (j : ℚ) else 99) 26 14 =
      calculate_rsi (fun j => if 0 ≤ j then (j : ℚ) else -5) 26 14 ∧
    calculate_macd (fun j => if j ≤ 26 then (j : ℚ) else 99) 26 =
      calculate_macd (fun j => if 0 ≤ j then (j : ℚ) else -5) 26 ∧
    calculate_sma (fun j => if j ≤ 26 then (j : ℚ) else 99) 26 20 =
      calculate_sma (fun j => if 0 ≤ j then (j : ℚ) else -5) 26 20 :=
  indicators_no_lookahead _ _ 26 (by omega)
    (fun j h0 h26 => by rw [if_pos h26, if_pos h0])

end FrameClaims

section EngineClaims

/-- Reading the list-backed price history at the final index gives the last
element of the list. -/
lemma closesFun_last (L : List ℚ) (h : L ≠ []) :
    closesFun L ((L.length : ℤ) - 1) = L.getLast?.getD 0 := by
  have hlen : 0 < L.length := List.length_pos.mpr h
  simp only [closesFun]
  rw [if_pos (by omega : (0 : ℤ) ≤ (L.length : ℤ) - 1)]
  have ht : ((L.length : ℤ) - 1).toNat = L.length - 1 := by omega
  rw [ht, List.getD_eq_getElem?_getD, List.getLast?_eq_getElem?]

/-- Every in-range read of the list-backed price history of a candle series
with strictly positive closes is strictly positive. -/
lemma closesFun_pos_of (candles : List Candle) (hpos : ∀ c ∈ candles, 0 < c.close)
    (i : ℕ) (hi : i < (closesOf candles).length) :
    0 < closesFun (closesOf candles) (i : ℤ) := by
  simp only [closesFun]
  rw [if_pos (Int.natCast_nonneg i), Int.toNat_natCast]
  simp only [closesOf] at hi ⊢
  rw [List.getD_eq_getElem (List.map Candle.close candles) 0 hi]
  have hmem : (List.map Candle.close candles)[i] ∈ List.map Candle.close candles :=
    List.getElem_mem hi
  obtain ⟨c, hc, hval⟩ := List.mem_map.mp hmem
  rw [← hval]
  exact hpos c hc

/-- If the indicator-based entry condition fails at every scanned index, the
scan never opens a position and never completes a trade. -/
lemma foldl_no_entry (closes : ℤ → ℚ) (pt : ℚ) :
    ∀ l : List ℕ,
      (∀ i ∈ l, ¬ (calculate_rsi closes i 14 < 30 ∧ 0 < calculate_macd closes i ∧
        calculate_sma closes i 20 < closes i)) →
      ∀ s : EngineState, s.in_position = false → s.trades = 0 →
        (l.foldl (stepState closes pt) s).in_position = false ∧
        (l.foldl (stepState closes pt) s).trades = 0 := by
  intro l
  induction l with
  | nil => exact fun _ s h1 h2 => ⟨h1, h2⟩
  | cons a t ih =>
      intro h s h1 h2
      simp only [List.foldl_cons]
      have hnotexit : ¬ (s.in_position = true ∧
          (60 < calculate_rsi closes (a : ℤ) 14 ∨
            closes (a : ℤ) < calculate_sma closes (a : ℤ) 20)) := by
        rintro ⟨hc1, -⟩
        rw [h1] at hc1
        exact Bool.false_ne_true hc1
      have hstep : stepState closes pt s a = s := by
        simp only [stepState]
        rw [if_neg (fun hcon => (h a (List.mem_cons_self a t)) hcon.2), if_neg hnotexit]
      rw [hstep]
      exact ih (fun i hi => h i (List.mem_cons_of_mem a hi)) s h1 h2

/-- A scan over indices whose closes are all strictly positive preserves the
invariant that a held position has a strictly positive entry price. -/
lemma foldl_entry_pos (closes : List ℚ) (pt : ℚ) :
    ∀ l : List ℕ, (∀ i ∈ l, 0 < closesFun closes (i : ℤ)) →
      ∀ s : EngineState, (s.in_position = true → 0 < s.entry_price) →
        ((l.foldl (stepState (closesFun closes) pt) s).in_position = true →
          0 < (l.foldl (stepState (closesFun closes) pt) s).entry_price) := by
  intro l
  induction l with
  | nil => exact fun _ s hs => hs
  | cons a t ih =>
      intro h s hs
      simp only [List.foldl_cons]
      apply ih (fun i hi => h i (List.mem_cons_of_mem a hi))
      simp only [stepState]
      split_ifs with hA hB hC
      · intro _
        exact h a (List.mem_cons_self a t)
      · intro hcon
        simp at hcon
      · intro hcon
        simp at hcon
      · exact hs

/-- C1: at any scanned index, a flat state with RSI below 30, positive MACD
and the close above the 20-bar SMA enters long recording the close as entry
price; a long state with RSI above 60 or the close below the SMA exits,
adding the return fraction to the running total, incrementing the trade
count, and incrementing the win count exactly when the return fraction
strictly exceeds the profit threshold; and the two transitions can never
fire together at one index. -/
theorem step_transitions (closes : ℤ → ℚ) (pt : ℚ) (s : EngineState) (i : ℕ)
    (hi : 26 ≤ i) :
    (s.in_position = false → calculate_rsi closes i 14 < 30 → 0 < calculate_macd closes i →
      calculate_sma closes i 20 < closes i →
      stepState closes pt s i = { s with in_position := true, entry_price := closes i }) ∧
    (s.in_position = true →
      (60 < calculate_rsi closes i 14 ∨ closes i < calculate_sma closes i 20) →
      stepState closes pt s i =
        { s with
            total_return := s.total_return + (closes i - s.entry_price) / s.entry_price,
            wins := if pt < (closes i - s.entry_price) / s.entry_price then s.wins + 1
              else s.wins,
            trades := s.trades + 1,
            in_position := false }) ∧
    ¬ ((s.in_position = false ∧ calculate_rsi closes i 14 < 30 ∧ 0 < calculate_macd closes i ∧
          calculate_sma closes i 20 < closes i) ∧
        (s.in_position = true ∧
          (60 < calculate_rsi closes i 14 ∨ closes i < calculate_sma closes i 20))) := by
  refine ⟨?_, ?_, ?_⟩
  · intro h0 h1 h2 h3
    simp only [stepState]
    rw [if_pos ⟨h0, h1, h2, h3⟩]
  · intro h0 hexit
    simp only [stepState]
    rw [if_neg (fun hcon => by rw [h0] at hcon; simp at hcon), if_pos ⟨h0, hexit⟩]
  · rintro ⟨⟨h0, -⟩, h1, -⟩
    rw [h0] at h1
    exact Bool.false_ne_true h1

/-- Witness for C1: on `exCloses` the entry condition holds at index 26 from
the initial flat state, and the step enters long at the final close. -/
theorem step_transitions_witness :
    stepState (closesFun exCloses) 0 initState 26 =
      { initState with in_position := true, entry_price := closesFun exCloses 26 } :=
  (step_transitions (closesFun exCloses) 0 initState 26 (by decide)).1
    (by decide) (by decide) (by decide) (by decide)

/-- C2: whenever the scan ends still long, the run records exactly one
additional trade, using the last element of the closing-price series as the
exit price with the same total-return, win and trade accounting as a normal
exit; the reported trade count is the scan trade count plus this forced
close. -/
theorem forced_close_accounting (candles : List Candle) (pt : ℚ)
    (h : (scanState candles pt).in_position = true) :
    (run_strategy candles pt).trade_count = (scanState candles pt).trades + 1 ∧
    finalState candles pt =
      { scanState candles pt with
          total_return := (scanState candles pt).total_return +
            ((closesOf candles).getLast?.getD 0 - (scanState candles pt).entry_price) /
              (scanState candles pt).entry_price,
          wins := if pt < ((closesOf candles).getLast?.getD 0 -
                (scanState candles pt).entry_price) / (scanState candles pt).entry_price
            then (scanState candles pt).wins + 1 else (scanState candles pt).wins,
          trades := (scanState candles pt).trades + 1 } := by
  have hlen : 26 < (closesOf candles).length := by
    by_contra hn
    push_neg at hn
    have hdrop : (List.range (closesOf candles).length).drop 26 = [] :=
      List.drop_eq_nil_of_le (by simpa using hn)
    have hscan : scanState candles pt = initState := by
      simp only [scanState]
      rw [hdrop]
      rfl
    rw [hscan] at h
    exact Bool.false_ne_true h
  have hne : closesOf candles ≠ [] := by
    intro hnil
    rw [hnil] at hlen
    simp at hlen
  have hlast : closesFun (closesOf candles) (((closesOf candles).length : ℤ) - 1) =
      (closesOf candles).getLast?.getD 0 := closesFun_last _ hne
  constructor
  · simp only [run_strategy, finalState]
    rw [if_pos h]
  · simp only [finalState]
    rw [if_pos h, hlast]

/-- Witness for C2: on `exCandles` the scan ends long and the reported trade
count is the scan trade count plus one. -/
theorem forced_close_accounting_witness :
    (run_strategy exCandles 0).trade_count = (scanState exCandles 0).trades + 1 :=
  (forced_close_accounting exCandles 0 (by decide)).1

/-- C3: when at least one trade completed, the reported average return is
`total_return / trade_count × 100` and the success rate is
`wins / trade_count × 100`; when no trade completed both are 0; and in
particular when the entry condition never fires at any scanned index the
trade count is 0 and both percentages are 0. -/
theorem result_aggregation (candles : List Candle) (pt : ℚ) :
    (0 < (finalState candles pt).trades →
      (run_strategy candles pt).average_return_percent =
        (finalState candles pt).total_return / ((finalState candles pt).trades : ℚ) * 100 ∧
      (run_strategy candles pt).success_rate =
        ((finalState candles pt).wins : ℚ) / ((finalState candles pt).trades : ℚ) * 100) ∧
    ((finalState candles pt).trades = 0 →
      (run_strategy candles pt).average_return_percent = 0 ∧
      (run_strategy candles pt).success_rate = 0) ∧
    ((∀ i ∈ (List.range (closesOf candles).length).drop 26,
        ¬ (calculate_rsi (closesFun (closesOf candles)) i 14 < 30 ∧
          0 < calculate_macd (closesFun (closesOf candles)) i ∧
          calculate_sma (closesFun (closesOf candles)) i 20 <
            closesFun (closesOf candles) i)) →
      (run_strategy candles pt).trade_count = 0 ∧
      (run_strategy candles pt).average_return_percent = 0 ∧
      (run_strategy candles pt).success_rate = 0) := by
  refine ⟨?_, ?_, ?_⟩
  · intro hpos
    have hne : (finalState candles pt).trades ≠ 0 := Nat.pos_iff_ne_zero.mp hpos
    constructor
    · simp only [run_strategy]
      rw [if_pos hne]
    · simp only [run_strategy]
      rw [if_pos hne]
  · intro h0
    constructor
    · simp only [run_strategy]
      rw [if_neg (fun hne => hne h0)]
    · simp only [run_strategy]
      rw [if_neg (fun hne => hne h0)]
  · intro hnoentry
    have hscan := foldl_no_entry (closesFun (closesOf candles)) pt _ hnoentry initState rfl rfl
    have hscan1 : (scanState candles pt).in_position = false := by
      simp only [scanState]
      exact hscan.1
    have hscan2 : (scanState candles pt).trades = 0 := by
      simp only [scanState]
      exact hscan.2
    have hfin : finalState candles pt = scanState candles pt := by
      simp only [finalState]
      rw [if_neg (by rw [hscan1]; exact Bool.false_ne_true)]
    refine ⟨?_, ?_, ?_⟩
    · simp only [run_strategy]
      rw [hfin]
      exact hscan2
    · simp only [run_strategy]
      rw [hfin, if_neg (fun hne => hne hscan2)]
    · simp only [run_strategy]
      rw [hfin, if_neg (fun hne => hne hscan2)]

/-- Witness for C3: on `exCandles` exactly one trade completed (the forced
close), so the reported percentages follow the quotient formulas. -/
theorem result_aggregation_witness :
    (run_strategy exCandles 0).average_return_percent =
      (finalState exCandles 0).total_return / ((finalState exCandles 0).trades : ℚ) * 100 ∧
    (run_strategy exCandles 0).success_rate =
      ((finalState exCandles 0).wins : ℚ) / ((finalState exCandles 0).trades : ℚ) * 100 :=
  (result_aggregation exCandles 0).1 (by decide)

/-- C9 as stated is false: on `c9candles` (which satisfies the entry
condition at index 26 with a non-positive close) the scan ends with a held
position whose recorded entry price is not strictly positive. -/
theorem position_entry_price_not_positive :
    (scanState c9candles 0).in_position = true ∧
    ¬ (0 < (scanState c9candles 0).entry_price) := by
  decide

/-- C9 amended: when every candle close in the series is strictly positive,
then at every point of the scan a held position has a strictly positive
entry price. -/
theorem position_entry_price_positive (candles : List Candle) (pt : ℚ) (m : ℕ)
    (hpos : ∀ c ∈ candles, 0 < c.close) :
    (scanStateUpTo candles pt m).in_position = true →
      0 < (scanStateUpTo candles pt m).entry_price := by
  have hall : ∀ i ∈ ((List.range (closesOf candles).length).drop 26).take m,
      0 < closesFun (closesOf candles) (i : ℤ) := by
    intro i hi
    have hi1 : i ∈ (List.range (closesOf candles).length).drop 26 :=
      List.take_subset _ _ hi
    have hi2 : i ∈ List.range (closesOf candles).length := List.drop_subset _ _ hi1
    exact closesFun_pos_of candles hpos i (List.mem_range.mp hi2)
  have hbase : initState.in_position = true → 0 < initState.entry_price := by decide
  have hres := foldl_entry_pos (closesOf candles) pt _ hall initState hbase
  simpa only [scanStateUpTo] using hres

/-- Witness for the amended C9: on the all-positive series `exCandles`,
after the first scanned index a position is held and its entry price is
strictly positive. -/
theorem position_entry_price_positive_witness :
    0 < (scanStateUpTo exCandles 0 1).entry_price :=
  position_entry_price_positive exCandles 0 1 (by decide) (by decide)

/-- C10: a series of at most 26 candles is never scanned: the state machine
never leaves its initial state, no forced close happens, and the run reports
zero trades, zero success rate, zero average return and an empty log, for
any profit threshold. -/
theorem short_series_no_trades (candles : List Candle) (pt : ℚ)
    (h : candles.length ≤ 26) :
    scanState candles pt = initState ∧ finalState candles pt = initState ∧
    run_strategy candles pt =
      { success_rate := 0, average_return_percent := 0, trade_count := 0,
        trade_log := [] } := by
  have hn : (closesOf candles).length ≤ 26 := by simpa [closesOf] using h
  have hdrop : (List.range (closesOf candles).length).drop 26 = [] :=
    List.drop_eq_nil_of_le (by simpa using hn)
  have h1 : scanState candles pt = initState := by
    simp only [scanState]
    rw [hdrop]
    rfl
  have h2 : finalState candles pt = initState := by
    simp only [finalState]
    rw [h1]
    rfl
  have h3 : run_strategy candles pt =
      { success_rate := 0, average_return_percent := 0, trade_count := 0,
        trade_log := [] } := by
    simp only [run_strategy]
    rw [h2]
    rfl
  exact ⟨h1, h2, h3⟩

/-- Witness for C10: the empty candle series reports the all-zero result. -/
theorem short_series_no_trades_witness :
    run_strategy ([] : List Candle) 0 =
      { success_rate := 0, average_return_percent := 0, trade_count := 0,
        trade_log := [] } :=
  (short_series_no_trades [] 0 (by decide)).2.2

end EngineClaims

end Strategy
